import Mathlib

/-!
# Verification of the girc IRC client's mode engine and connection lifecycle

This development shallowly embeds the girc client (Go) in Lean 4:

* the mode/permission engine of `modes.go` (`CMode`, `CModes`, `hasArg`,
  `apply`, `parse`, `newCModes`, `String`);
* the connection lifecycle of the client (`Connect`, `Reconnect`,
  `Whowas`, `GetNick`).

Go strings that are scanned byte-by-byte (mode flags, classification
strings) are modelled as `List Char`; opaque strings (arguments,
nicknames, commands) stay `String`.  Machine integers that matter
(`Config.Port`) are `Int`.  Network and timing effects are modelled by
explicit parameters (a transport oracle `Nat → Bool` giving the outcome
of each dial attempt, a `Bool`/`Option` for decode/reply outcomes).
-/

namespace Girc

/-- Embeds `CMode` (modes.go): a single step of a given mode change.
Field-for-field translation: `add` (+ or -), `name` (mode character),
`setting` (stored persistent setting vs temporary op/voice grant),
`args` (argument string, empty when absent). -/
structure CMode where
  add : Bool
  name : Char
  setting : Bool
  args : String
deriving DecidableEq, Repr

/-- Embeds `CModes` (modes.go): a set of modes — the raw supported-modes string,
its four derived buckets, the user-permission prefixes, and the list of
modes of this state. -/
structure CModes where
  raw : List Char
  modesListArgs : List Char
  modesArgs : List Char
  modesSetArgs : List Char
  modesNoArgs : List Char
  prefixes : List Char
  modes : List CMode
deriving DecidableEq, Repr

/-- The list of mode characters stored in a mode list. -/
def namesOf (l : List CMode) : List Char := l.map (fun m => m.name)

/-- Embeds `CModes.hasArg` (modes.go): whether a mode supports arguments and
whether it is a stored setting.  Checks, in order: empty raw string,
list-args bucket, always-args bucket, set-only-args bucket (argument only
when `set`), permission prefixes, then the lenient default. -/
def CModes.hasArg (c : CModes) (set : Bool) (mode : Char) : Bool × Bool :=
  if c.raw.length < 1 then (false, true)
  else if c.modesListArgs.contains mode then (true, false)
  else if c.modesArgs.contains mode then (true, true)
  else if c.modesSetArgs.contains mode then
    (if set then (true, true) else (false, true))
  else if c.prefixes.contains mode then (true, false)
  else (false, true)

/-- The inner scan of `CModes.apply`'s first loop (modes.go): the first
incoming change that is a setting, has the given name, and is an add. -/
def findFirstAdd (incoming : List CMode) (n : Char) : Option CMode :=
  incoming.find? (fun m => m.setting && (n == m.name && m.add))

/-- First loop of `CModes.apply` (modes.go): each existing entry is
replaced by the first matching incoming add-setting, else kept. -/
def applyKeep (existing incoming : List CMode) : List CMode :=
  existing.map (fun e =>
    match findFirstAdd incoming e.name with
    | some m => m
    | none => e)

/-- One step of the second loop of `CModes.apply` (modes.go): skip
incoming changes that are not settings or not adds, skip names already in
the accumulated list, append the rest. -/
def applyAppend (acc : List CMode) (m : CMode) : List CMode :=
  if !m.setting || !m.add then acc
  else if acc.any (fun e => m.name == e.name) then acc
  else acc ++ [m]

/-- Embeds `CModes.apply` (modes.go), on the underlying mode lists: merge a list
of incoming changes into the stored state. -/
def applyModes (existing incoming : List CMode) : List CMode :=
  incoming.foldl applyAppend (applyKeep existing incoming)

/-- Embeds `CModes.apply` (modes.go) at the structure level: only the `modes`
field is rewritten. -/
def CModes.apply (c : CModes) (incoming : List CMode) : CModes :=
  { c with modes := applyModes c.modes incoming }

/-- The loop of `CModes.parse` (modes.go), with the current polarity
`add` and the argument cursor `argCount` made explicit. -/
def CModes.parseLoop (c : CModes) :
    List Char → Bool → List String → Nat → List CMode
  | [], _, _, _ => []
  | f :: rest, add, args, argCount =>
    if f == '+' then c.parseLoop rest true args argCount
    else if f == '-' then c.parseLoop rest false args argCount
    else if (c.hasArg add f).1 && decide (args.length ≥ argCount + 1) then
      { add := add, name := f, setting := (c.hasArg add f).2,
        args := args.getD argCount "" }
        :: c.parseLoop rest add args (argCount + 1)
    else
      { add := add, name := f, setting := (c.hasArg add f).2, args := "" }
        :: c.parseLoop rest add args argCount

/-- Embeds `CModes.parse` (modes.go): parse a flag string and argument list into
mode changes, starting in add polarity with the argument cursor at 0. -/
def CModes.parse (c : CModes) (flags : List Char) (args : List String) :
    List CMode :=
  c.parseLoop flags true args 0

/-- Splitting off everything before the first comma, if there is one
(helper for `strings.SplitN` with separator ","). -/
def splitAtComma : List Char → Option (List Char × List Char)
  | [] => none
  | c :: rest =>
    if c = ',' then some ([], rest)
    else
      match splitAtComma rest with
      | none => none
      | some (a, b) => some (c :: a, b)

/-- Go's `strings.SplitN (s, ",", n)`: at most `n` substrings, the last
one keeping any remaining commas. -/
def splitN (s : List Char) : Nat → List (List Char)
  | 0 => []
  | 1 => [s]
  | n + 2 =>
    match splitAtComma s with
    | none => [s]
    | some (a, b) => a :: splitN b (n + 1)

/-- Embeds `newCModes` (modes.go): build a fresh `CModes` from a channel-modes
classification string and a user-prefix string, splitting the former into
its four buckets and padding with empty buckets when fewer than four. -/
def newCModes (channelModes userPrefixes : List Char) : CModes :=
  let split := splitN channelModes 4
  let split := split ++ List.replicate (4 - split.length) ([] : List Char)
  { raw := channelModes
    modesListArgs := split.getD 0 []
    modesArgs := split.getD 1 []
    modesSetArgs := split.getD 2 []
    modesNoArgs := split.getD 3 []
    prefixes := userPrefixes
    modes := [] }

/-- The flag portion built by `CModes.String` (modes.go): a leading `+`
when any modes are stored, then every stored mode character in order. -/
def flagsOf (l : List CMode) : List Char :=
  (if l.length > 0 then ['+'] else []) ++ namesOf l

/-- The arguments collected by `CModes.String` (modes.go): the non-empty
argument of every stored mode, in order (the source joins them with
spaces; the round-trip feeds them back as a list). -/
def argsOf (l : List CMode) : List String :=
  (l.filter (fun m => m.args.length > 0)).map (fun m => m.args)

/-- Embeds `CModes.String` (modes.go): the rendered mode string, e.g.
`"+a-b+cde some-arg"` — the flag run followed by the space-prefixed
arguments. -/
def CModes.string (c : CModes) : String :=
  (String.mk (flagsOf c.modes)) ++
    String.join ((argsOf c.modes).map (fun a => " " ++ a))

/-- All mode sets reachable from a fresh `newCModes` by any sequence of
`CModes.apply` merges. -/
inductive ReachableCModes : CModes → Prop
  | fresh (channelModes userPrefixes : List Char) :
      ReachableCModes (newCModes channelModes userPrefixes)
  | step (c : CModes) (incoming : List CMode) :
      ReachableCModes c → ReachableCModes (c.apply incoming)

/-! ## Specification-side mode definitions

Used to compare the source's `apply`/`parse` loops with the spec's
description of `merge` and `parseFlags`. -/

/-- From the spec's words for `merge`, clause (1): every existing entry
is kept unless replaced by an incoming change that is persistent and
polarity-add with the same character. -/
def specKeepReplace (existing incoming : List CMode) : List CMode :=
  existing.map (fun e => (findFirstAdd incoming e.name).getD e)

/-- From the spec's words for `merge`, clause (2): append every incoming
change whose mode character is not already represented, scanning left to
right; `seen` holds the characters already represented. -/
def specNewEntries (seen : List Char) : List CMode → List CMode
  | [] => []
  | m :: rest =>
    if m.name ∈ seen then specNewEntries seen rest
    else m :: specNewEntries (m.name :: seen) rest

/-- From the spec's words for `merge`: keep-or-replace the existing
entries, then append the incoming persistent polarity-add changes not yet
represented (clause (3): all other incoming changes are discarded by the
filter). -/
def mergeSpec (existing incoming : List CMode) : List CMode :=
  specKeepReplace existing incoming ++
    specNewEntries (namesOf existing)
      (incoming.filter (fun m => m.setting && m.add))

/-- From the spec's words for `parseFlags`: scanning left to right, `+`
and `-` set the current polarity and are not modes themselves; every
other character is emitted with the then-current polarity. -/
def polarityTrack : List Char → Bool → List (Char × Bool)
  | [], _ => []
  | ch :: rest, add =>
    if ch = '+' then polarityTrack rest true
    else if ch = '-' then polarityTrack rest false
    else (ch, add) :: polarityTrack rest add

/-- From the spec's words for `parseFlags`: arguments are matched to mode
characters strictly by position — when the classification says the mode
takes an argument and arguments remain unconsumed, the next unused
argument is attached. -/
def attachArgs (c : CModes) : List (Char × Bool) → List String → List CMode
  | [], _ => []
  | p :: rest, [] =>
    { add := p.2, name := p.1, setting := (c.hasArg p.2 p.1).2, args := "" }
      :: attachArgs c rest []
  | p :: rest, a :: args' =>
    if (c.hasArg p.2 p.1).1 then
      { add := p.2, name := p.1, setting := (c.hasArg p.2 p.1).2, args := a }
        :: attachArgs c rest args'
    else
      { add := p.2, name := p.1, setting := (c.hasArg p.2 p.1).2, args := "" }
        :: attachArgs c rest (a :: args')

/-! ## Client lifecycle (main client file)

The connection-facing code performs I/O; its control flow is embedded
with the I/O outcomes passed in explicitly (dial results, send results,
decode results), and with ghost counters recording the observable actions
(transport opens, events sent, `Connect` invocations). -/

/-- Embeds `Event` (main client file): a protocol message — command, positional
params, optional trailing text, sensitivity flag. -/
structure Event where
  command : String
  params : List String
  trailing : String
  sensitive : Bool := false
deriving DecidableEq, Repr

/-- Embeds `Config` (main client file): the fields of the client configuration
consulted by `Connect` and `Reconnect`.  `hasUserConn` models
`Config.Conn != nil` (a user-supplied connection skips dialing). -/
structure Config where
  server : String
  port : Int
  password : String
  nick : String
  user : String
  name : String
  hasUserConn : Bool
  maxRetries : Nat
deriving DecidableEq, Repr

/-- Embeds `connectMessages` (main client file): optional PASS, then NICK, then
USER (realname falling back to the username when empty). -/
def connectMessages (cfg : Config) : List Event :=
  (if cfg.password ≠ "" then
    [{ command := "PASS", params := [cfg.password], trailing := "" }]
  else []) ++
  [{ command := "NICK", params := [cfg.nick], trailing := "" }] ++
  [{ command := "USER", params := [cfg.user, "+iw", "*"],
     trailing := if cfg.name = "" then cfg.user else cfg.name }]

/-- The error exits of `Client.Connect` (modes.go revision): the three
validation errors, a dial failure, or a handshake send failure. -/
inductive ConnectError
  | invalidServer
  | invalidPort
  | invalidNickOrUser
  | dialFailed
  | sendFailed
deriving DecidableEq, Repr

/-- Whether a `Connect` outcome is one of the fail-fast configuration
errors (invalid server / port / identity). -/
def isConfigErr : Option ConnectError → Bool
  | some .invalidServer => true
  | some .invalidPort => true
  | some .invalidNickOrUser => true
  | _ => false

/-- Observable outcome of one `Client.Connect` call: the returned error,
the number of transport-open (dial) calls made, and the handshake events
written to the transport. -/
structure ConnectResult where
  error : Option ConnectError
  transportOpens : Nat
  sent : List Event
deriving DecidableEq, Repr

/-- Embeds `Client.Connect` (modes.go revision): validates the server address,
the port range (21-65535) and the nickname/username grammar before any
dial; then dials (unless a user connection is supplied), sends the
handshake, and marks the state connected.  `isValidNick`/`isValidUser`
are the grammar validators (defined outside the mode engine), passed as
parameters; `dialOk` is the dial outcome and `sendOk` the outcome of the
handshake writes (per-event write errors collapsed into one flag, which
is all the claims observe). -/
def connect (isValidNick isValidUser : String → Bool)
    (dialOk sendOk : Bool) (cfg : Config) : ConnectResult :=
  if cfg.server = "" then
    { error := some .invalidServer, transportOpens := 0, sent := [] }
  else if cfg.port < 21 ∨ cfg.port > 65535 then
    { error := some .invalidPort, transportOpens := 0, sent := [] }
  else if ¬(isValidNick cfg.nick = true ∧ isValidUser cfg.user = true) then
    { error := some .invalidNickOrUser, transportOpens := 0, sent := [] }
  else
    let opens := if cfg.hasUserConn then 0 else 1
    if ¬cfg.hasUserConn ∧ ¬dialOk then
      { error := some .dialFailed, transportOpens := opens, sent := [] }
    else if ¬sendOk then
      { error := some .sendFailed, transportOpens := opens, sent := [] }
    else
      { error := none, transportOpens := opens, sent := connectMessages cfg }

/-- A concrete configuration with an empty server address (used to
evaluate the fail-fast validation). -/
def cfgEmptyServer : Config :=
  { server := "", port := 6667, password := "", nick := "n", user := "u",
    name := "", hasUserConn := false, maxRetries := 0 }

/-- The client state consulted and mutated by `Client.Reconnect`
(modes.go revision), with a ghost counter `connectCalls` recording how
many times `Client.Connect` was invoked. -/
structure ReconnectState where
  reconnecting : Bool
  hasQuit : Bool
  connected : Bool
  tries : Nat
  connectCalls : Nat
deriving DecidableEq, Repr

/-- The effect of one `Client.Connect` call during reconnection, for a
valid configuration: the session state is replaced by a fresh one, then
the dial either fails (`transport n = true` means the `n`-th dial fails)
or succeeds, resetting `tries` and marking the state connected.  Returns
the state and whether an error was returned. -/
def connectAttempt (transport : Nat → Bool) (s : ReconnectState) :
    ReconnectState × Bool :=
  let s1 : ReconnectState :=
    { s with reconnecting := false, hasQuit := false, connected := false,
             connectCalls := s.connectCalls + 1 }
  if transport s.connectCalls then (s1, true)
  else ({ s1 with tries := 0, connected := true }, false)

/-- The retry loop of `Client.Reconnect` as written in the source:
`for err = c.Connect(); err != nil && c.tries < c.Config.MaxRetries;
c.tries++ { ...; time.Sleep(...) }` — the body only logs, re-sets the
reconnecting flag and sleeps, so only `tries` and `reconnecting` change
while the condition holds; `err` is fixed by the loop initializer.
Returns the final `tries` and `reconnecting`. -/
def retrySleepLoop (maxRetries : Nat) (err : Bool) (tries : Nat)
    (reconnecting : Bool) : Nat × Bool :=
  if h : err = true ∧ tries < maxRetries then
    retrySleepLoop maxRetries err (tries + 1) true
  else (tries, reconnecting)
termination_by maxRetries - tries
decreasing_by
  exact Nat.sub_lt_sub_left h.2 (Nat.lt_succ_self tries)

/-- The non-error returns of `Client.Reconnect`: rejected because a
reconnect is already running, a no-op after a quit, the error of the
connect sequence, or the no-retries path that closes the event queue. -/
inductive ReconnectReturn
  | alreadyConnecting
  | quitNoop
  | connectResult (err : Bool)
  | eventsClosed
deriving DecidableEq, Repr

/-- Observable outcome of one `Client.Reconnect` call: final state,
return value, and whether `Client.Stop` was called. -/
structure ReconnectOutcome where
  state : ReconnectState
  ret : ReconnectReturn
  stopped : Bool
deriving DecidableEq, Repr

/-- Embeds `Client.Reconnect` (modes.go revision): guard against concurrent
reconnects, no-op after quit, then — when retries are configured — the
delay clamp and sleep (time is not modelled), the single `Connect` in the
for-loop initializer, the sleep-only loop, and `Stop` when the error is
still set; with no retries configured the event queue is closed.  The
`Quit` call for a still-connected client sends QUIT and closes the
transport; its `hasQuit` flag is restored by its own defer, so it leaves
the modelled fields unchanged. -/
def reconnect (transport : Nat → Bool) (maxRetries : Nat)
    (s : ReconnectState) : ReconnectOutcome :=
  if s.reconnecting then
    { state := s, ret := .alreadyConnecting, stopped := false }
  else
    let s := { s with reconnecting := true }
    if s.hasQuit then { state := s, ret := .quitNoop, stopped := false }
    else if maxRetries > 0 then
      let cr := connectAttempt transport s
      let lr := retrySleepLoop maxRetries cr.2 cr.1.tries cr.1.reconnecting
      { state := { cr.1 with tries := lr.1, reconnecting := lr.2 },
        ret := .connectResult cr.2, stopped := cr.2 }
    else
      { state := s, ret := .eventsClosed, stopped := false }

/-- The error branch of `Client.readLoop` (modes.go revision): a decode
failure makes the loop return `c.Reconnect()` — a single reconnect
sequence — and exit. -/
def readLoopOnDecodeError (transport : Nat → Bool) (maxRetries : Nat)
    (s : ReconnectState) : ReconnectOutcome :=
  reconnect transport maxRetries s

/-- Modelled from the spec: `Reconnect` as §4.3/§8 describe it — missing
from the source as written — "retries `Connect()` up to a configured
maximum attempt count", i.e. a first attempt followed by up to
`retriesLeft` further `Connect` calls while the previous one failed.
Used to compare the intended attempt count with the source's. -/
def specRetryConnect (transport : Nat → Bool) (retriesLeft : Nat)
    (s : ReconnectState) : ReconnectState × Bool :=
  match connectAttempt transport s with
  | (s1, false) => (s1, false)
  | (s1, true) =>
    match retriesLeft with
    | 0 => (s1, true)
    | r + 1 => specRetryConnect transport r s1

/-! ## Whowas and the temporary-callback registry -/

/-- Embeds `User` (main client file): the fields `Whowas` fills in. -/
structure User where
  nick : String
  ident : String
  host : String
  name : String
deriving DecidableEq, Repr

/-- One registered callback: its identifier and the command it is
registered for. -/
abbrev CallerEntry := String × String

/-- Modelled from the spec: the callback registry's `AddBg` (the `Caller`
type is outside the mode engine's source) — registers one background
handler for a command under a fresh identifier and returns the
identifier. -/
def addBg (registry : List CallerEntry) (id cmd : String) :
    List CallerEntry :=
  registry ++ [(id, cmd)]

/-- Modelled from the spec: the callback registry's `Remove` — deletes
every entry with the given identifier. -/
def removeCallback (registry : List CallerEntry) (id : String) :
    List CallerEntry :=
  registry.filter (fun e => e.1 ≠ id)

/-- RPL_WHOWASUSER numeric (constant defined outside the mode engine). -/
def RPL_WHOWASUSER : String := "314"

/-- RPL_ENDOFWHOWAS numeric (constant defined outside the mode engine). -/
def RPL_ENDOFWHOWAS : String := "369"

/-- The fixed wait window of `Client.Whowas`, in seconds. -/
def whowasTimeoutSecs : Nat := 2

/-- The results `Client.Whowas` can return. -/
inductive WhowasResult
  | invalidTarget
  | notConnected
  | timedOut (id : String) (timeoutSecs : Nat)
  | users (us : List User)
deriving DecidableEq, Repr

/-- The `User` built from one RPL_WHOWASUSER event in `Client.Whowas`:
`<nick> <user> <host> * :<real_name>`. -/
def whowasUser (e : Event) : User :=
  { nick := e.params.getD 1 "", ident := e.params.getD 2 "",
    host := e.params.getD 3 "", name := e.trailing }

/-- Embeds `Client.Whowas` (modes.go revision): validate the nickname and the
connection, register the two temporary background callbacks, send the
query, then wait.  The concurrent wait is modelled by its outcome
`response`: `none` when no matching RPL_ENDOFWHOWAS arrives within the
2-second window, `some evs` with the collected matching RPL_WHOWASUSER
events otherwise.  On timeout both callbacks are removed and an
`ErrCallbackTimedout` carrying `whoCb + " + " + whoDoneCb` and the
timeout is returned; on success both callbacks are removed and the users
are returned.  `whoId`/`whoDoneId` are the identifiers `AddBg` hands
out. -/
def whowas (validNick connected : Bool) (registry : List CallerEntry)
    (whoId whoDoneId : String) (response : Option (List Event)) :
    List CallerEntry × WhowasResult :=
  if ¬validNick then (registry, .invalidTarget)
  else if ¬connected then (registry, .notConnected)
  else
    let reg1 := addBg registry whoId RPL_WHOWASUSER
    let reg2 := addBg reg1 whoDoneId RPL_ENDOFWHOWAS
    match response with
    | none =>
      (removeCallback (removeCallback reg2 whoId) whoDoneId,
        .timedOut (whoId ++ " + " ++ whoDoneId) whowasTimeoutSecs)
    | some evs =>
      (removeCallback (removeCallback reg2 whoId) whoDoneId,
        .users (evs.map whowasUser))

/-! ## GetNick -/

/-- Modelled from the spec: the nickname of a freshly built session state
("rebuilt from scratch on every successful connect") — the session
nickname starts empty until the session changes it. -/
def newStateNick : String := ""

/-- Embeds `Client.GetNick` (modes.go revision): panics when tracking is
disabled (modelled as `none`), otherwise falls back to the configured
nickname when the session-tracked nickname is empty. -/
def getNick (disableTracking : Bool) (stateNick configNick : String) :
    Option String :=
  if disableTracking then none
  else if stateNick = "" then some configNick
  else some stateNick

/-! ## Helper lemmas about the merge algorithm -/

theorem findFirstAdd_spec {incoming : List CMode} {n : Char} {m : CMode}
    (h : findFirstAdd incoming n = some m) :
    n = m.name ∧ m.setting = true ∧ m.add = true := by
  have hp := List.find?_some h
  simp only [Bool.and_eq_true, beq_iff_eq] at hp
  exact ⟨hp.2.1, hp.1, hp.2.2⟩

theorem applyKeep_nil (incoming : List CMode) : applyKeep [] incoming = [] := rfl

theorem applyKeep_cons (e : CMode) (ex incoming : List CMode) :
    applyKeep (e :: ex) incoming =
      (match findFirstAdd incoming e.name with
        | some m => m
        | none => e) :: applyKeep ex incoming := rfl

theorem applyKeep_append (a b incoming : List CMode) :
    applyKeep (a ++ b) incoming = applyKeep a incoming ++ applyKeep b incoming :=
  List.map_append _ a b

theorem namesOf_applyKeep (ex incoming : List CMode) :
    namesOf (applyKeep ex incoming) = namesOf ex := by
  induction ex with
  | nil => rfl
  | cons e ex ih =>
    rw [applyKeep_cons]
    simp only [namesOf, List.map_cons] at ih ⊢
    rw [ih]
    cases h : findFirstAdd incoming e.name with
    | none => rfl
    | some m => rw [(findFirstAdd_spec h).1]

theorem applyKeep_eq_spec (ex incoming : List CMode) :
    applyKeep ex incoming = specKeepReplace ex incoming := by
  unfold applyKeep specKeepReplace
  apply List.map_congr_left
  intro e _
  cases h : findFirstAdd incoming e.name <;> simp [h, Option.getD]

theorem any_name_iff (acc : List CMode) (n : Char) :
    (acc.any (fun e => n == e.name) = true) ↔ n ∈ namesOf acc := by
  simp only [List.any_eq_true, beq_iff_eq, namesOf, List.mem_map]
  constructor
  · rintro ⟨e, he, rfl⟩
    exact ⟨e, he, rfl⟩
  · rintro ⟨e, he, rfl⟩
    exact ⟨e, he, rfl⟩

theorem specNewEntries_congr {seen seen' : List Char}
    (h : ∀ n, n ∈ seen ↔ n ∈ seen') (l : List CMode) :
    specNewEntries seen l = specNewEntries seen' l := by
  induction l generalizing seen seen' with
  | nil => rfl
  | cons m rest ih =>
    by_cases hm : m.name ∈ seen
    · rw [specNewEntries, if_pos hm, specNewEntries, if_pos ((h m.name).mp hm),
        ih h]
    · rw [specNewEntries, if_neg hm, specNewEntries,
        if_neg (fun hc => hm ((h m.name).mpr hc))]
      congr 1
      apply ih
      intro n
      simp only [List.mem_cons]
      exact or_congr Iff.rfl (h n)

theorem foldl_applyAppend (l acc : List CMode) :
    l.foldl applyAppend acc =
      acc ++ specNewEntries (namesOf acc)
        (l.filter (fun m => m.setting && m.add)) := by
  induction l generalizing acc with
  | nil => simp [specNewEntries]
  | cons m rest ih =>
    rw [List.foldl_cons, ih]
    cases hs : m.setting with
    | false =>
      have h1 : applyAppend acc m = acc := by simp [applyAppend, hs]
      rw [h1, List.filter_cons]
      simp [hs]
    | true =>
      cases ha : m.add with
      | false =>
        have h1 : applyAppend acc m = acc := by simp [applyAppend, hs, ha]
        rw [h1, List.filter_cons]
        simp [hs, ha]
      | true =>
        rw [List.filter_cons]
        simp only [hs, ha, Bool.and_self, if_pos]
        by_cases hmem : m.name ∈ namesOf acc
        · have h1 : applyAppend acc m = acc := by
            rw [applyAppend]
            simp only [hs, ha, Bool.not_true, Bool.or_self, Bool.false_eq_true,
              if_false]
            rw [if_pos ((any_name_iff acc m.name).mpr hmem)]
          rw [h1, specNewEntries, if_pos hmem]
        · have h1 : applyAppend acc m = acc ++ [m] := by
            rw [applyAppend]
            simp only [hs, ha, Bool.not_true, Bool.or_self, Bool.false_eq_true,
              if_false]
            rw [if_neg]
            intro hc
            exact hmem ((any_name_iff acc m.name).mp hc)
          rw [h1, specNewEntries, if_neg hmem, List.append_assoc,
            List.singleton_append]
          congr 1
          congr 1
          apply specNewEntries_congr
          intro n
          simp only [namesOf, List.map_append, List.map_cons, List.map_nil,
            List.mem_append, List.mem_cons, List.mem_singleton]
          constructor
          · rintro (h | h)
            · exact Or.inr h
            · exact Or.inl (by simpa using h)
          · rintro (h | h)
            · exact Or.inr (by simpa using h)
            · exact Or.inl h

/-- Closed form of the source's merge: keep-or-replace the existing
entries, then append the incoming add-settings whose characters are not
yet represented. -/
theorem applyModes_closed (ex incoming : List CMode) :
    applyModes ex incoming =
      applyKeep ex incoming ++
        specNewEntries (namesOf ex)
          (incoming.filter (fun m => m.setting && m.add)) := by
  rw [applyModes, foldl_applyAppend, namesOf_applyKeep]

theorem mem_of_mem_specNewEntries {seen : List Char} {l : List CMode}
    {m : CMode} (h : m ∈ specNewEntries seen l) : m ∈ l := by
  induction l generalizing seen with
  | nil => simp [specNewEntries] at h
  | cons a rest ih =>
    rw [specNewEntries] at h
    by_cases ha : a.name ∈ seen
    · rw [if_pos ha] at h
      exact List.mem_cons_of_mem a (ih h)
    · rw [if_neg ha] at h
      rcases List.mem_cons.mp h with h | h
      · exact h ▸ List.mem_cons_self a rest
      · exact List.mem_cons_of_mem a (ih h)

theorem specNewEntries_find {seen : List Char} {l : List CMode} {m : CMode}
    (h : m ∈ specNewEntries seen l) :
    l.find? (fun a => m.name == a.name) = some m ∧ m.name ∉ seen := by
  induction l generalizing seen with
  | nil => simp [specNewEntries] at h
  | cons a rest ih =>
    rw [specNewEntries] at h
    by_cases ha : a.name ∈ seen
    · rw [if_pos ha] at h
      obtain ⟨hfind, hns⟩ := ih h
      refine ⟨?_, hns⟩
      rw [List.find?_cons_of_neg, hfind]
      intro hc
      exact hns (beq_iff_eq.mp hc ▸ ha)
    · rw [if_neg ha] at h
      rcases List.mem_cons.mp h with rfl | h
      · exact ⟨List.find?_cons_of_pos _ (beq_self_eq_true m.name), ha⟩
      · obtain ⟨hfind, hns⟩ := ih h
        have hne : m.name ≠ a.name := fun hc => hns (hc ▸ List.mem_cons_self _ _)
        refine ⟨?_, fun hc => hns (List.mem_cons_of_mem _ hc)⟩
        rw [List.find?_cons_of_neg, hfind]
        intro hc
        exact hne (beq_iff_eq.mp hc)

theorem specNewEntries_eq_nil {seen : List Char} {l : List CMode}
    (h : ∀ m ∈ l, m.name ∈ seen) : specNewEntries seen l = [] := by
  induction l with
  | nil => rfl
  | cons a rest ih =>
    rw [specNewEntries, if_pos (h a (List.mem_cons_self a rest))]
    exact ih fun m hm => h m (List.mem_cons_of_mem a hm)

theorem specNewEntries_covers {seen : List Char} {l : List CMode} {m : CMode}
    (h : m ∈ l) :
    m.name ∈ seen ∨ m.name ∈ namesOf (specNewEntries seen l) := by
  induction l generalizing seen with
  | nil => simp at h
  | cons a rest ih =>
    rcases List.mem_cons.mp h with rfl | h
    · by_cases ha : m.name ∈ seen
      · exact Or.inl ha
      · rw [specNewEntries, if_neg ha]
        exact Or.inr (by simp [namesOf])
    · by_cases ha : a.name ∈ seen
      · rw [specNewEntries, if_pos ha]
        exact ih h
      · rw [specNewEntries, if_neg ha]
        rcases @ih (a.name :: seen) h with hm | hm
        · rcases List.mem_cons.mp hm with hm | hm
          · refine Or.inr ?_
            rw [hm]
            simp [namesOf]
          · exact Or.inl hm
        · refine Or.inr ?_
          simp only [namesOf, List.map_cons, List.mem_cons]
          exact Or.inr (by simpa [namesOf] using hm)

theorem specNewEntries_names_nodup (l : List CMode) (seen : List Char) :
    (namesOf (specNewEntries seen l)).Nodup ∧
      ∀ n ∈ namesOf (specNewEntries seen l), n ∉ seen := by
  induction l generalizing seen with
  | nil => simp [specNewEntries, namesOf]
  | cons a rest ih =>
    rw [specNewEntries]
    by_cases ha : a.name ∈ seen
    · rw [if_pos ha]
      exact ih seen
    · rw [if_neg ha]
      obtain ⟨hnd, hns⟩ := ih (a.name :: seen)
      simp only [namesOf, List.map_cons, List.nodup_cons] at hnd hns ⊢
      refine ⟨⟨fun hc => (hns _ hc) (List.mem_cons_self _ _), hnd⟩, ?_⟩
      intro n hn
      rcases List.mem_cons.mp hn with rfl | hn
      · exact ha
      · exact fun hc => (hns n hn) (List.mem_cons_of_mem _ hc)

theorem find?_filter_bool {α : Type} (l : List α) (p q : α → Bool) :
    (l.filter p).find? q = l.find? (fun a => p a && q a) := by
  induction l with
  | nil => rfl
  | cons a l ih =>
    rw [List.filter_cons]
    by_cases hp : p a = true
    · by_cases hq : q a = true
      · simp [hp, hq]
      · simp only [Bool.not_eq_true] at hq
        simp [hp, hq, ih]
    · simp only [Bool.not_eq_true] at hp
      simp [hp, ih]

theorem findFirstAdd_eq_filter (incoming : List CMode) (n : Char) :
    findFirstAdd incoming n =
      (incoming.filter (fun m => m.setting && m.add)).find?
        (fun m => n == m.name) := by
  rw [find?_filter_bool, findFirstAdd]
  congr 1
  funext m
  rw [Bool.and_comm (n == m.name) m.add, ← Bool.and_assoc]

theorem applyKeep_applyKeep (ex incoming : List CMode) :
    applyKeep (applyKeep ex incoming) incoming = applyKeep ex incoming := by
  induction ex with
  | nil => rfl
  | cons e ex ih =>
    cases h : findFirstAdd incoming e.name with
    | none => simp only [applyKeep_cons, h, ih]
    | some m =>
      have hname : m.name = e.name := (findFirstAdd_spec h).1.symm
      simp only [applyKeep_cons, hname, h, ih]

theorem applyKeep_specNewEntries (seen : List Char) (incoming : List CMode) :
    applyKeep
      (specNewEntries seen (incoming.filter (fun m => m.setting && m.add)))
      incoming =
      specNewEntries seen (incoming.filter (fun m => m.setting && m.add)) := by
  rw [applyKeep]
  conv_rhs => rw [← List.map_id
    (specNewEntries seen (incoming.filter (fun m => m.setting && m.add)))]
  apply List.map_congr_left
  intro e he
  have hfind := (specNewEntries_find he).1
  rw [findFirstAdd_eq_filter, hfind]
  rfl

/-- The merge only grows the set of stored mode characters by incoming
persistent adds: membership in the merged name list. -/
theorem namesOf_applyModes (ex incoming : List CMode) (n : Char) :
    n ∈ namesOf (applyModes ex incoming) ↔
      n ∈ namesOf ex ∨
        n ∈ namesOf (specNewEntries (namesOf ex)
          (incoming.filter (fun m => m.setting && m.add))) := by
  rw [applyModes_closed]
  simp only [namesOf, List.map_append, List.mem_append]
  rw [← namesOf, ← namesOf, ← namesOf, namesOf_applyKeep]

/-- Idempotence of the merge at the list level: remerging the same
incoming changes leaves the result unchanged. -/
theorem applyModes_idem (ex incoming : List CMode) :
    applyModes (applyModes ex incoming) incoming = applyModes ex incoming := by
  have h1 : applyKeep (applyModes ex incoming) incoming
      = applyModes ex incoming := by
    rw [applyModes_closed ex incoming, applyKeep_append, applyKeep_applyKeep,
      applyKeep_specNewEntries]
  have h2 : ∀ m ∈ incoming.filter (fun m => m.setting && m.add),
      m.name ∈ namesOf (applyModes ex incoming) := by
    intro m hm
    exact (namesOf_applyModes ex incoming m.name).mpr
      (@specNewEntries_covers (namesOf ex) _ _ hm)
  calc applyModes (applyModes ex incoming) incoming
      = applyKeep (applyModes ex incoming) incoming ++
          specNewEntries (namesOf (applyModes ex incoming))
            (incoming.filter (fun m => m.setting && m.add)) :=
        applyModes_closed _ _
    _ = applyModes ex incoming ++ [] := by
        rw [h1, specNewEntries_eq_nil h2]
    _ = applyModes ex incoming := List.append_nil _

/-- Nodup of stored names is preserved by the merge. -/
theorem nodup_applyModes {ex : List CMode} (incoming : List CMode)
    (h : (namesOf ex).Nodup) : (namesOf (applyModes ex incoming)).Nodup := by
  rw [applyModes_closed]
  simp only [namesOf, List.map_append]
  rw [← namesOf, ← namesOf, namesOf_applyKeep]
  obtain ⟨hnd, hns⟩ := specNewEntries_names_nodup
    (incoming.filter (fun m => m.setting && m.add)) (namesOf ex)
  exact List.Nodup.append h hnd (fun n hn hn' => hns n hn' hn)

/-! ## Helper lemmas about the parser -/

/-- The parse loop with explicit argument cursor equals the spec-side
scan that tracks polarity and consumes arguments from the front. -/
theorem parseLoop_eq_attachArgs (c : CModes) (flags : List Char) :
    ∀ (add : Bool) (args : List String) (k : Nat),
    c.parseLoop flags add args k =
      attachArgs c (polarityTrack flags add) (args.drop k) := by
  induction flags with
  | nil =>
    intro add args k
    rfl
  | cons f rest ih =>
    intro add args k
    by_cases hplus : f = '+'
    · subst hplus
      rw [CModes.parseLoop, polarityTrack]
      rw [if_pos (beq_self_eq_true '+'), if_pos rfl]
      exact ih true args k
    · by_cases hminus : f = '-'
      · subst hminus
        rw [CModes.parseLoop, polarityTrack]
        rw [if_neg (by decide : ¬(('-' : Char) == '+') = true),
          if_pos (beq_self_eq_true '-'),
          if_neg (by decide : ¬('-' : Char) = '+'), if_pos rfl]
        exact ih false args k
      · rw [CModes.parseLoop, polarityTrack]
        rw [if_neg (fun hc => hplus (beq_iff_eq.mp hc)),
          if_neg (fun hc => hminus (beq_iff_eq.mp hc)),
          if_neg hplus, if_neg hminus]
        rcases Nat.lt_or_ge k args.length with hk | hk
        · rw [List.drop_eq_getElem_cons hk, attachArgs]
          have hgetD : args.getD k "" = args[k] := by
            rw [List.getD_eq_getElem?_getD, List.getElem?_eq_getElem hk]
            rfl
          by_cases hha : (c.hasArg add f).1 = true
          · have hguard : ((c.hasArg add f).1 &&
                decide (args.length ≥ k + 1)) = true := by
              simp only [hha, Bool.true_and, decide_eq_true_eq]
              exact hk
            rw [if_pos hguard, if_pos hha, hgetD, ih]
          · simp only [Bool.not_eq_true] at hha
            have hguard : ¬((c.hasArg add f).1 &&
                decide (args.length ≥ k + 1)) = true := by
              simp [hha]
            rw [if_neg hguard, if_neg (by simp [hha]), ih,
              List.drop_eq_getElem_cons hk]
        · have hnil : args.drop k = [] := List.drop_eq_nil_of_le hk
          have hguard : ¬((c.hasArg add f).1 &&
              decide (args.length ≥ k + 1)) = true := by
            simp only [Bool.and_eq_true, decide_eq_true_eq]
            omega
          rw [hnil, attachArgs, if_neg hguard, ih, hnil]

/-- Every mode change emitted by the parse loop carries a character of
the flag string that is neither `+` nor `-`. -/
theorem parseLoop_name_mem {c : CModes} {flags : List Char} :
    ∀ {add : Bool} {args : List String} {k : Nat} {m : CMode},
    m ∈ c.parseLoop flags add args k →
      m.name ∈ flags ∧ m.name ≠ '+' ∧ m.name ≠ '-' := by
  induction flags with
  | nil =>
    intro add args k m h
    simp [CModes.parseLoop] at h
  | cons f rest ih =>
    intro add args k m h
    rw [CModes.parseLoop] at h
    by_cases hplus : f = '+'
    · rw [if_pos (by simp [hplus])] at h
      obtain ⟨h1, h2⟩ := ih h
      exact ⟨List.mem_cons_of_mem f h1, h2⟩
    · rw [if_neg (by simp [hplus])] at h
      by_cases hminus : f = '-'
      · rw [if_pos (by simp [hminus])] at h
        obtain ⟨h1, h2⟩ := ih h
        exact ⟨List.mem_cons_of_mem f h1, h2⟩
      · rw [if_neg (by simp [hminus])] at h
        by_cases hguard : ((c.hasArg add f).1 &&
            decide (args.length ≥ k + 1)) = true
        · rw [if_pos hguard] at h
          rcases List.mem_cons.mp h with rfl | h
          · exact ⟨List.mem_cons_self _ _, hplus, hminus⟩
          · obtain ⟨h1, h2⟩ := ih h
            exact ⟨List.mem_cons_of_mem f h1, h2⟩
        · rw [if_neg hguard] at h
          rcases List.mem_cons.mp h with rfl | h
          · exact ⟨List.mem_cons_self _ _, hplus, hminus⟩
          · obtain ⟨h1, h2⟩ := ih h
            exact ⟨List.mem_cons_of_mem f h1, h2⟩

/-! ## Helper lemmas about classification-string splitting -/

theorem splitAtComma_append {A r : List Char} (h : ',' ∉ A) :
    splitAtComma (A ++ ',' :: r) = some (A, r) := by
  induction A with
  | nil => rfl
  | cons c A ih =>
    have hc : ¬c = ',' := fun hc => h (hc ▸ List.mem_cons_self c A)
    rw [List.cons_append, splitAtComma, if_neg hc,
      ih (fun hm => h (List.mem_cons_of_mem c hm))]

theorem splitN_four {A B C D : List Char}
    (hA : ',' ∉ A) (hB : ',' ∉ B) (hC : ',' ∉ C) :
    splitN (A ++ ',' :: (B ++ ',' :: (C ++ ',' :: D))) 4 = [A, B, C, D] := by
  show splitN _ (2 + 2) = _
  rw [splitN, splitAtComma_append hA]
  show _ :: splitN _ (1 + 2) = _
  rw [splitN, splitAtComma_append hB]
  show _ :: (_ :: splitN _ (0 + 2)) = _
  rw [splitN, splitAtComma_append hC]
  rfl

theorem newCModes_of_buckets {A B C D pre : List Char}
    (hA : ',' ∉ A) (hB : ',' ∉ B) (hC : ',' ∉ C) :
    newCModes (A ++ ',' :: (B ++ ',' :: (C ++ ',' :: D))) pre =
      { raw := A ++ ',' :: (B ++ ',' :: (C ++ ',' :: D))
        modesListArgs := A
        modesArgs := B
        modesSetArgs := C
        modesNoArgs := D
        prefixes := pre
        modes := [] } := by
  rw [newCModes, splitN_four hA hB hC]
  rfl

theorem contains_eq_false_of_not_mem {l : List Char} {c : Char}
    (h : c ∉ l) : l.contains c = false := by
  simpa using h

theorem contains_eq_true_of_mem {l : List Char} {c : Char}
    (h : c ∈ l) : l.contains c = true := by
  simpa using h

theorem mem_removeCallback {reg : List CallerEntry} {id : String}
    {e : CallerEntry} (h : e ∈ removeCallback reg id) : e ∈ reg ∧ e.1 ≠ id := by
  rw [removeCallback] at h
  have h2 := List.mem_filter.mp h
  exact ⟨h2.1, by simpa using h2.2⟩

/-- Round trip for an arbitrary mode state: rendering the stored modes,
parsing the rendered flags and arguments under the same tables, and
merging the result back in leaves the set of stored mode characters
unchanged. -/
theorem roundtrip_names (d : CModes) (n : Char) :
    n ∈ namesOf ((d.apply
        (d.parse (flagsOf d.modes) (argsOf d.modes))).modes) ↔
      n ∈ namesOf d.modes := by
  show n ∈ namesOf (applyModes d.modes _) ↔ _
  rw [namesOf_applyModes]
  constructor
  · rintro (h | h)
    · exact h
    · simp only [namesOf, List.mem_map] at h
      obtain ⟨m, hm, rfl⟩ := h
      have hmem : m ∈ d.parse (flagsOf d.modes) (argsOf d.modes) :=
        List.mem_of_mem_filter (mem_of_mem_specNewEntries hm)
      obtain ⟨hin, hp, hmn⟩ := parseLoop_name_mem hmem
      rw [flagsOf] at hin
      rcases List.mem_append.mp hin with hin | hin
      · by_cases hlen : d.modes.length > 0
        · rw [if_pos hlen] at hin
          exact absurd (List.mem_singleton.mp hin) hp
        · rw [if_neg hlen] at hin
          simp at hin
      · exact hin
  · intro h
    exact Or.inl h

/-! ## Claim theorems -/

/-- C1: `CModes.apply` produces the new persistent mode list by keeping
each existing entry unless an incoming persistent polarity-add change
with the same character replaces it, appending each incoming persistent
polarity-add change whose character is not already represented, and
writing no non-persistent or polarity-remove incoming change; in
particular a `-x` removal of a stored mode leaves the stored entry in
place (the whole state is unchanged). -/
theorem c1_merge_spec (c : CModes) (incoming : List CMode) :
    (c.apply incoming).modes = mergeSpec c.modes incoming ∧
      ∀ (x : Char) (a : String),
        c.apply [{ add := false, name := x, setting := true, args := a }]
          = c := by
  constructor
  · show applyModes c.modes incoming = mergeSpec c.modes incoming
    rw [applyModes_closed, applyKeep_eq_spec, mergeSpec]
  · intro x a
    have hkeep : applyKeep c.modes
        [{ add := false, name := x, setting := true, args := a }]
          = c.modes := by
      rw [applyKeep]
      conv_rhs => rw [← List.map_id c.modes]
      apply List.map_congr_left
      intro e _
      have hnone : findFirstAdd
          [{ add := false, name := x, setting := true, args := a }] e.name
            = none := by
        simp [findFirstAdd]
      rw [hnone]
      rfl
    have hmodes : applyModes c.modes
        [{ add := false, name := x, setting := true, args := a }]
          = c.modes := by
      rw [applyModes_closed, hkeep]
      have hfilter :
          ([({ add := false, name := x, setting := true, args := a } : CMode)]).filter (fun m => m.setting && m.add) = [] := rfl
      rw [hfilter, specNewEntries, List.append_nil]
    show ({ c with modes := applyModes c.modes _ } : CModes) = c
    rw [hmodes]

/-- C7: the merge is idempotent — applying the same list of persistent,
polarity-add changes twice yields the same mode set as applying it
once. -/
theorem c7_merge_idempotent (c : CModes) (incoming : List CMode)
    (_h : ∀ m ∈ incoming, m.setting = true ∧ m.add = true) :
    (c.apply incoming).apply incoming = c.apply incoming := by
  simp only [CModes.apply, applyModes_idem]

/-- C8: for a mode set produced by the merge, rendering it, parsing the
rendered flag string and arguments under the same classification tables,
and merging the result into the same set reproduces exactly the same set
of active mode characters. -/
theorem c8_roundtrip (c : CModes) (incoming : List CMode) (n : Char) :
    n ∈ namesOf (((c.apply incoming).apply
        ((c.apply incoming).parse (flagsOf (c.apply incoming).modes)
          (argsOf (c.apply incoming).modes))).modes) ↔
      n ∈ namesOf (c.apply incoming).modes :=
  roundtrip_names (c.apply incoming) n

/-- C9: every mode set reachable from a fresh `newCModes` by any
sequence of merges stores at most one entry per distinct mode
character. -/
theorem c9_no_duplicate_names (c : CModes) (h : ReachableCModes c) :
    (namesOf c.modes).Nodup := by
  induction h with
  | fresh channelModes userPrefixes => exact List.Pairwise.nil
  | step c' incoming hr ih => exact nodup_applyModes incoming ih

/-- C3: `CModes.parse` scans the flag string left to right, `+`/`-` set
the polarity and emit nothing, every other character emits one change
with the current polarity, and arguments are attached strictly by
position whenever the classification reports an argument and arguments
remain; in particular `parse "+o-v" ["alice","bob"]` with `o`,`v` as
permission-prefix characters yields `+o alice` (transient) and `-v bob`
(transient). -/
theorem c3_parse_positional :
    (∀ (c : CModes) (flags : List Char) (args : List String),
      c.parse flags args = attachArgs c (polarityTrack flags true) args) ∧
    (newCModes ("b,k,l,imnpst".toList) ("ov".toList)).parse
        ("+o-v".toList) ["alice", "bob"] =
      [{ add := true, name := 'o', setting := false, args := "alice" },
       { add := false, name := 'v', setting := false, args := "bob" }] := by
  constructor
  · intro c flags args
    rw [CModes.parse, parseLoop_eq_attachArgs, List.drop_zero]
  · rfl

/-- C4 counterexample: with the classification string `",,,o"` (so the
never-argument bucket D is `"o"`) and permission prefixes `"o"`, the
buckets are pairwise disjoint and `o ∈ D`, yet `hasArg` classifies `+o`
as taking an argument and not persistent — not `(false, true)` as the
claim requires for bucket-D characters. -/
theorem c4_counterexample :
    'o' ∈ (newCModes (",,,o".toList) ("o".toList)).modesNoArgs ∧
      (newCModes (",,,o".toList) ("o".toList)).hasArg true 'o'
        = (true, false) ∧
      (newCModes (",,,o".toList) ("o".toList)).hasArg true 'o'
        ≠ (false, true) := by
  refine ⟨?_, rfl, ?_⟩
  · decide
  · decide

/-- C4 (amended): for a classification string of the form `"A,B,C,D"`
with disjoint buckets: a character in the list-type bucket A classifies
as hasArgument true, persistent false; a character in the never-argument
bucket D *that is not a permission-prefix character*, or in no bucket
and not a permission-prefix character, classifies as `(false, true)`;
and a permission-prefix character in no bucket classifies as
`(true, false)`. -/
theorem c4_classify_amended (A B C D pre : List Char) (ch : Char)
    (hA : ',' ∉ A) (hB : ',' ∉ B) (hC : ',' ∉ C)
    (_hAB : ∀ a ∈ A, a ∉ B) (_hAC : ∀ a ∈ A, a ∉ C) (hAD : ∀ a ∈ A, a ∉ D)
    (_hBC : ∀ a ∈ B, a ∉ C) (hBD : ∀ a ∈ B, a ∉ D) (hCD : ∀ a ∈ C, a ∉ D) :
    (ch ∈ A →
      (newCModes (A ++ ',' :: (B ++ ',' :: (C ++ ',' :: D))) pre).hasArg
        true ch = (true, false)) ∧
    ((ch ∈ D ∨ (ch ∉ A ∧ ch ∉ B ∧ ch ∉ C ∧ ch ∉ D)) → ch ∉ pre →
      (newCModes (A ++ ',' :: (B ++ ',' :: (C ++ ',' :: D))) pre).hasArg
        true ch = (false, true)) ∧
    (ch ∈ pre → ch ∉ A → ch ∉ B → ch ∉ C → ch ∉ D →
      (newCModes (A ++ ',' :: (B ++ ',' :: (C ++ ',' :: D))) pre).hasArg
        true ch = (true, false)) := by
  rw [newCModes_of_buckets hA hB hC]
  have hraw : ¬((A ++ ',' :: (B ++ ',' :: (C ++ ',' :: D))).length < 1) := by
    intro hlen
    simp [List.length_append] at hlen
  refine ⟨?_, ?_, ?_⟩
  · intro hch
    simp only [CModes.hasArg]
    rw [if_neg hraw, if_pos (contains_eq_true_of_mem hch)]
  · intro hch hpre
    have hnA : ch ∉ A := by
      rcases hch with hch | hch
      · exact fun hc => hAD ch hc hch
      · exact hch.1
    have hnB : ch ∉ B := by
      rcases hch with hch | hch
      · exact fun hc => hBD ch hc hch
      · exact hch.2.1
    have hnC : ch ∉ C := by
      rcases hch with hch | hch
      · exact fun hc => hCD ch hc hch
      · exact hch.2.2.1
    simp only [CModes.hasArg]
    rw [if_neg hraw,
      if_neg (by rw [contains_eq_false_of_not_mem hnA]; exact Bool.false_ne_true),
      if_neg (by rw [contains_eq_false_of_not_mem hnB]; exact Bool.false_ne_true),
      if_neg (by rw [contains_eq_false_of_not_mem hnC]; exact Bool.false_ne_true),
      if_neg (by rw [contains_eq_false_of_not_mem hpre]; exact Bool.false_ne_true)]
  · intro hch hnA hnB hnC hnD
    simp only [CModes.hasArg]
    rw [if_neg hraw,
      if_neg (by rw [contains_eq_false_of_not_mem hnA]; exact Bool.false_ne_true),
      if_neg (by rw [contains_eq_false_of_not_mem hnB]; exact Bool.false_ne_true),
      if_neg (by rw [contains_eq_false_of_not_mem hnC]; exact Bool.false_ne_true),
      if_pos (contains_eq_true_of_mem hch)]

/-- C4 witness: the amended classification at a concrete table
`"b,k,l,im"` with prefixes `"ov"` — the character `i` sits in bucket D
and is no prefix, so it classifies as no-argument persistent. -/
theorem c4_classify_amended_witness :
    (newCModes ("b,k,l,im".toList) ("ov".toList)).hasArg true 'i'
      = (false, true) :=
  (c4_classify_amended ("b".toList) ("k".toList) ("l".toList) ("im".toList)
    ("ov".toList) 'i' (by decide) (by decide) (by decide) (by decide)
    (by decide) (by decide) (by decide) (by decide) (by decide)).2.1
    (Or.inl (by decide)) (by decide)

/-- C7 witness: idempotence at a concrete mode set and a concrete list
of persistent add changes. -/
theorem c7_merge_idempotent_witness :
    (∀ m ∈ ([{ add := true, name := 'i', setting := true, args := "" },
             { add := true, name := 'm', setting := true, args := "x" }] :
        List CMode), m.setting = true ∧ m.add = true) ∧
    ((newCModes ("b,k,l,imnpst".toList) ("ov".toList)).apply
        [{ add := true, name := 'i', setting := true, args := "" },
         { add := true, name := 'm', setting := true, args := "x" }]).apply
        [{ add := true, name := 'i', setting := true, args := "" },
         { add := true, name := 'm', setting := true, args := "x" }] =
      (newCModes ("b,k,l,imnpst".toList) ("ov".toList)).apply
        [{ add := true, name := 'i', setting := true, args := "" },
         { add := true, name := 'm', setting := true, args := "x" }] :=
  ⟨by decide, c7_merge_idempotent _ _ (by decide)⟩

/-- C9 witness: no duplicate stored mode characters in a concrete
reachable mode set. -/
theorem c9_no_duplicate_names_witness :
    (namesOf ((newCModes ("b,k,l,imnpst".toList) ("ov".toList)).apply
        [{ add := true, name := 'i', setting := true, args := "" },
         { add := true, name := 'i', setting := true, args := "y" }]).modes).Nodup :=
  c9_no_duplicate_names _
    (ReachableCModes.step _ _ (ReachableCModes.fresh _ _))

/-- C2 evaluation: a read failure while connected hands off to a single
`Reconnect` sequence, and with `MaxRetries = 2` and a transport whose
dial attempts always fail, the source's reconnect sequence invokes
`Connect` exactly once — not three times — before stopping the client
(`Connect` sits in the retry for-loop's *initializer*, so the loop body
only sleeps); the spec-modelled retry loop on the same inputs makes the
claimed 3 attempts. -/
theorem c2_reconnect_attempt_count :
    (readLoopOnDecodeError (fun _ => true) 2
      { reconnecting := false, hasQuit := false, connected := true,
        tries := 0, connectCalls := 0 }).state.connectCalls = 1 ∧
    (readLoopOnDecodeError (fun _ => true) 2
      { reconnecting := false, hasQuit := false, connected := true,
        tries := 0, connectCalls := 0 }).stopped = true ∧
    (specRetryConnect (fun _ => true) 2
      { reconnecting := false, hasQuit := false, connected := true,
        tries := 0, connectCalls := 0 }).1.connectCalls = 3 :=
  ⟨rfl, rfl, rfl⟩

/-- C5: when `Whowas` gets no matching reply within its 2-second window
it returns a request-timeout error carrying both temporary callback
identifiers and the configured timeout; and on both the success and the
timeout exit paths both temporary callbacks are deregistered, so no
handler registered by the call remains. -/
theorem c5_whowas_cleanup (registry : List CallerEntry)
    (whoId whoDoneId : String) (response : Option (List Event)) :
    (response = none →
      (whowas true true registry whoId whoDoneId response).2 =
        .timedOut (whoId ++ " + " ++ whoDoneId) whowasTimeoutSecs) ∧
    ∀ e ∈ (whowas true true registry whoId whoDoneId response).1,
      e.1 ≠ whoId ∧ e.1 ≠ whoDoneId := by
  constructor
  · intro hnone
    subst hnone
    rfl
  · intro e he
    have hreg : (whowas true true registry whoId whoDoneId response).1 =
        removeCallback (removeCallback
          (addBg (addBg registry whoId RPL_WHOWASUSER) whoDoneId
            RPL_ENDOFWHOWAS) whoId) whoDoneId := by
      cases response <;> rfl
    rw [hreg] at he
    obtain ⟨hin, hne2⟩ := mem_removeCallback he
    obtain ⟨_, hne1⟩ := mem_removeCallback hin
    exact ⟨hne1, hne2⟩

/-- C5 witness: a concrete timed-out `Whowas` call — the timeout error
carries both identifiers and the 2-second window, and no entry with
either identifier survives in the registry. -/
theorem c5_whowas_cleanup_witness :
    (whowas true true [("k1", "PING")] "id1" "id2" none).2 =
      .timedOut ("id1" ++ " + " ++ "id2") whowasTimeoutSecs ∧
    ∀ e ∈ (whowas true true [("k1", "PING")] "id1" "id2" none).1,
      e.1 ≠ "id1" ∧ e.1 ≠ "id2" :=
  ⟨(c5_whowas_cleanup [("k1", "PING")] "id1" "id2" none).1 rfl,
    (c5_whowas_cleanup [("k1", "PING")] "id1" "id2" none).2⟩

/-- C6: `Connect` with an empty server address, an out-of-range port, or
an invalid nickname or username returns a configuration error before any
transport open (zero dial calls) and before any handshake event is
sent. -/
theorem c6_connect_failfast (vN vU : String → Bool) (dialOk sendOk : Bool)
    (cfg : Config)
    (h : cfg.server = "" ∨ cfg.port < 21 ∨ cfg.port > 65535 ∨
      vN cfg.nick = false ∨ vU cfg.user = false) :
    isConfigErr (connect vN vU dialOk sendOk cfg).error = true ∧
      (connect vN vU dialOk sendOk cfg).transportOpens = 0 ∧
      (connect vN vU dialOk sendOk cfg).sent = [] := by
  unfold connect
  by_cases h1 : cfg.server = ""
  · rw [if_pos h1]
    exact ⟨rfl, rfl, rfl⟩
  · rw [if_neg h1]
    by_cases h2 : cfg.port < 21 ∨ cfg.port > 65535
    · rw [if_pos h2]
      exact ⟨rfl, rfl, rfl⟩
    · rw [if_neg h2]
      have h3 : ¬(vN cfg.nick = true ∧ vU cfg.user = true) := by
        rcases h with h | h | h | h | h
        · exact absurd h h1
        · exact absurd (Or.inl h) h2
        · exact absurd (Or.inr h) h2
        · intro hc
          rw [hc.1] at h
          exact Bool.true_eq_false.mp h
        · intro hc
          rw [hc.2] at h
          exact Bool.true_eq_false.mp h
      rw [if_pos h3]
      exact ⟨rfl, rfl, rfl⟩

/-- C6 witness: a concrete configuration with an empty server address is
rejected as a configuration error with zero transport opens and nothing
sent. -/
theorem c6_connect_failfast_witness :
    cfgEmptyServer.server = "" ∧
    isConfigErr (connect (fun _ => true) (fun _ => true) true true
      cfgEmptyServer).error = true ∧
    (connect (fun _ => true) (fun _ => true) true true
      cfgEmptyServer).transportOpens = 0 ∧
    (connect (fun _ => true) (fun _ => true) true true
      cfgEmptyServer).sent = [] :=
  ⟨rfl,
    c6_connect_failfast (fun _ => true) (fun _ => true) true true
      cfgEmptyServer (Or.inl rfl)⟩

/-- C10: `GetNick` returns the session-tracked nickname when it is
non-empty and otherwise falls back to the configured nickname; a client
whose nickname was never changed by the session gets the configured
nickname, not the empty string. -/
theorem c10_getNick_fallback :
    (∀ stateNick configNick : String, stateNick ≠ "" →
      getNick false stateNick configNick = some stateNick) ∧
    ∀ configNick : String,
      getNick false newStateNick configNick = some configNick := by
  constructor
  · intro stateNick configNick hs
    simp [getNick, hs]
  · intro configNick
    rfl

/-- C10 witness: the fallback at concrete nicknames. -/
theorem c10_getNick_fallback_witness :
    getNick false "zed" "cfg" = some "zed" ∧
      getNick false newStateNick "cfg" = some "cfg" :=
  ⟨c10_getNick_fallback.1 "zed" "cfg" (by decide),
    c10_getNick_fallback.2 "cfg"⟩

end Girc
